import Mathlib

/-!
Verification of the `b16-delivery-system` repository
(`delivery_system.cpp`, `task_queue.h`, `topological_map.h`).

Shallow embedding conventions:
* C++ `double` edge weights and distances are modelled as exact rationals `ℚ`;
  IEEE rounding is not modelled (all claims are about the algorithmic content,
  and `+infinity` is modelled by `Option ℚ` with `none` standing for infinity,
  which matches IEEE comparison behaviour for the values this program forms:
  no NaN ever arises because `dist[u] + w` is only formed with finite or
  infinite `dist[u]` and finite positive `w`).
* C++ `int` order quantities, robot ids and capacities are modelled as `ℤ`
  (no arithmetic in the program can overflow 32-bit in the scenarios claimed,
  and no claim is about overflow).
* Node indices are modelled as `ℕ`; the predecessor array `prev`, which the
  C++ fills with `-1` sentinels, is modelled as `List (Option ℕ)` with `none`
  for `-1`.
* `std::priority_queue<int, vector<int>, cmp>` with the by-reference
  comparator `cmp(l, r) = dist[l] > dist[r]` is modelled as a bag (list) of
  node indices from which `popMin` extracts an element whose *current*
  tentative distance is minimal, exactly the comparator the source installs.
* The `while` loops are modelled with explicit fuel; the fuel is proved
  sufficient (`dijkstraLoop_exits`, via the bound `2*E + 2` on the number of
  iterations), so the fuelled function agrees with the unbounded C++ loop.
* Out-of-bounds `std::vector::operator[]` access (undefined behaviour in the
  C++) is modelled by `Option`: `Graph.ofMatrix?` returns `none` exactly when
  the constructor would read past the end of a row.
* Console output is a side effect; the *data* each print statement would show
  (legs, paths, distances) is modelled as returned values.
* libc `srand`/`rand` are not part of the repository; the stream of `rand()`
  values produced after `srand(seed)` is modelled as an arbitrary function
  `rnd : ℕ → ℕ` (the k-th call to `rand()` returns `rnd k`), which captures
  exactly the libc guarantees the code relies on: determinism given the seed
  and non-negative results.
-/

namespace DeliverySystem

def epsilon : ℚ := 1 / 1000000

structure Node where
  id : ℕ
  edges : List (ℕ × ℚ) := []
  numOrders : ℤ := 0
  deriving Repr, DecidableEq

structure Graph where
  nodes : List Node
  deriving Repr, DecidableEq

def Graph.numNodes (g : Graph) : ℕ := g.nodes.length

def Graph.edgesOf (g : Graph) (u : ℕ) : List (ℕ × ℚ) :=
  ((g.nodes.getD u { id := u }).edges)

def Graph.ofMatrix? (m : List (List ℚ)) : Option Graph :=
  if m.all (fun row => m.length ≤ row.length) then
    some ⟨(List.range m.length).map (fun i =>
      { id := i
        edges := (List.range m.length).filterMap (fun j =>
          let d := (m.getD i []).getD j 0
          if epsilon < d then some (j, d) else none)
        numOrders := 0 })⟩
  else
    none

def Graph.updateOrders (g : Graph) (rnd : ℕ → ℕ) : Graph :=
  ⟨g.nodes.mapIdx (fun i nd =>
    if 1 ≤ i then { nd with numOrders := ((rnd (i - 1)) % 3 : ℕ) } else nd)⟩

def Graph.getOrderList (g : Graph) : List (ℕ × ℤ) :=
  g.nodes.map (fun nd => (nd.id, nd.numOrders))

structure Robot where
  id : ℤ
  carryingCapacity : ℤ
  deriving Repr, DecidableEq

structure Task where
  robotId : ℤ
  deliveryOrders : List (ℕ × ℤ)
  deriving Repr, DecidableEq

def batchesGo (cap : ℤ) (gs : List (List (ℕ × ℤ))) (group : List (ℕ × ℤ))
    (total : ℤ) : List (ℕ × ℤ) → List (List (ℕ × ℤ))
  | [] => if group.isEmpty then gs else gs ++ [group]
  | o :: rest =>
    if o.2 ≠ 0 then
      if total + o.2 > cap then
        batchesGo cap (gs ++ [group]) [o] o.2 rest
      else
        batchesGo cap gs (group ++ [o]) (total + o.2) rest
    else
      batchesGo cap gs group total rest

def batches (cap : ℤ) (orders : List (ℕ × ℤ)) : List (List (ℕ × ℤ)) :=
  batchesGo cap [] [] 0 orders

def TaskQueue.build (orders : List (ℕ × ℤ)) (robot : Robot) : List Task :=
  (batches robot.carryingCapacity orders).map (fun grp => ⟨robot.id, grp⟩)

def sumQ (grp : List (ℕ × ℤ)) : ℤ := (grp.map (·.2)).sum

def oadd (a : Option ℚ) (w : ℚ) : Option ℚ := a.map (· + w)

def oLt (a b : Option ℚ) : Bool :=
  match a, b with
  | some x, some y => decide (x < y)
  | some _, none => true
  | none, _ => false

structure DState where
  dist : List (Option ℚ)
  prev : List (Option ℕ)
  pq : List ℕ
  deriving Repr, DecidableEq

def DState.key (st : DState) (x : ℕ) : Option ℚ := st.dist.getD x none

def relaxOne (u : ℕ) (st : DState) (e : ℕ × ℚ) : DState :=
  let alt := oadd (st.key u) e.2
  if oLt alt (st.key e.1) then
    ⟨st.dist.set e.1 alt, st.prev.set e.1 (some u), st.pq ++ [e.1]⟩
  else
    st

def relaxEdges (u : ℕ) (es : List (ℕ × ℚ)) (st : DState) : DState :=
  es.foldl (relaxOne u) st

def popMin (dist : List (Option ℚ)) : List ℕ → Option (ℕ × List ℕ)
  | [] => none
  | x :: xs =>
    match popMin dist xs with
    | none => some (x, [])
    | some (y, ys) =>
      if oLt (dist.getD y none) (dist.getD x none) then some (y, x :: ys)
      else some (x, xs)

def dijkstraLoop (g : Graph) (dest : ℕ) : ℕ → DState → DState
  | 0, st => st
  | fuel + 1, st =>
    match popMin st.dist st.pq with
    | none => st
    | some (u, rest) =>
      if u = dest then ⟨st.dist, st.prev, rest⟩
      else dijkstraLoop g dest fuel (relaxEdges u (g.edgesOf u) ⟨st.dist, st.prev, rest⟩)

def Graph.totalEdges (g : Graph) : ℕ := (g.nodes.map (fun nd => nd.edges.length)).sum

def Graph.dijkstraInit (g : Graph) (s : ℕ) : DState :=
  ⟨(List.replicate g.numNodes (none : Option ℚ)).set s (some 0),
   List.replicate g.numNodes none, [s]⟩

def Graph.dijkstraFinal (g : Graph) (s d : ℕ) : DState :=
  dijkstraLoop g d (2 * g.totalEdges + 2) (g.dijkstraInit s)

def walkPrev (prev : List (Option ℕ)) : ℕ → ℕ → List ℕ
  | 0, _ => []
  | fuel + 1, u =>
    match prev.getD u none with
    | none => [u]
    | some p => u :: walkPrev prev fuel p

def Graph.shortestPathFull (g : Graph) (s d : ℕ) : ℚ × List ℕ :=
  let st := g.dijkstraFinal s d
  if st.prev.getD d none = none then (-1, [])
  else ((st.dist.getD d none).getD (-1), (walkPrev st.prev (g.numNodes + 1) d).reverse)

def Graph.shortestPath (g : Graph) (s d : ℕ) : ℚ := (g.shortestPathFull s d).1

inductive Walk (g : Graph) : ℕ → ℕ → ℚ → Prop
  | nil (u : ℕ) : Walk g u u 0
  | cons {u v d : ℕ} {w q : ℚ} :
      (v, w) ∈ g.edgesOf u → Walk g v d q → Walk g u d (w + q)

def Reach (g : Graph) (s d : ℕ) : Prop := ∃ q, Walk g s d q

def edgeW (g : Graph) (u v : ℕ) : Option ℚ := (g.edgesOf u).lookup v

def listWeight (g : Graph) : List ℕ → Option ℚ
  | [] => some 0
  | [_] => some 0
  | u :: v :: rest =>
    match edgeW g u v, listWeight g (v :: rest) with
    | some w, some q => some (w + q)
    | _, _ => none

structure Graph.WF (g : Graph) : Prop where
  targets : ∀ u, ∀ e ∈ g.edgesOf u, e.1 < g.numNodes
  pos : ∀ u, ∀ e ∈ g.edgesOf u, 0 < e.2
  nodup : ∀ u, ((g.edgesOf u).map Prod.fst).Nodup

def RelaxedOn (g : Graph) (st : DState) (q : ℚ) (es : List (ℕ × ℚ)) : Prop :=
  ∀ e ∈ es, ∃ r, st.key e.1 = some r ∧ r ≤ q + e.2

def RelaxedAt (g : Graph) (st : DState) (u : ℕ) (q : ℚ) : Prop :=
  RelaxedOn g st q (g.edgesOf u)

structure Inv (g : Graph) (s : ℕ) (κ : ℚ) (st : DState) : Prop where
  distLen : st.dist.length = g.numNodes
  prevLen : st.prev.length = g.numNodes
  pqLt : ∀ x ∈ st.pq, x < g.numNodes
  pqKey : ∀ x ∈ st.pq, ∃ qx, st.key x = some qx ∧ κ ≤ qx
  srcZero : st.key s = some 0
  achievable : ∀ v q, st.key v = some q → Walk g s v q
  roq : ∀ x q, st.key x = some q → RelaxedAt g st x q ∨ x ∈ st.pq
  prevSpec : ∀ v u, st.prev.getD v none = some u → v ≠ s ∧
    ∃ qv w, st.key v = some qv ∧ (v, w) ∈ g.edgesOf u ∧
      Walk g s u (qv - w) ∧ ∃ qu, st.key u = some qu ∧ qu ≤ qv - w
  prevSet : ∀ v, v ≠ s → ∀ q, st.key v = some q → st.prev.getD v none ≠ none
  prevSrc : st.prev.getD s none = none

structure RInv (g : Graph) (s u : ℕ) (κ' : ℚ) (st : DState) : Prop where
  distLen : st.dist.length = g.numNodes
  prevLen : st.prev.length = g.numNodes
  keyU : st.key u = some κ'
  pqLt : ∀ x ∈ st.pq, x < g.numNodes
  pqKey : ∀ x ∈ st.pq, ∃ qx, st.key x = some qx ∧ κ' ≤ qx
  srcZero : st.key s = some 0
  achievable : ∀ v q, st.key v = some q → Walk g s v q
  roqU : ∀ x q, st.key x = some q → RelaxedAt g st x q ∨ x ∈ st.pq ∨ x = u
  prevSpec : ∀ v u', st.prev.getD v none = some u' → v ≠ s ∧
    ∃ qv w, st.key v = some qv ∧ (v, w) ∈ g.edgesOf u' ∧
      Walk g s u' (qv - w) ∧ ∃ qu, st.key u' = some qu ∧ qu ≤ qv - w
  prevSet : ∀ v, v ≠ s → ∀ q, st.key v = some q → st.prev.getD v none ≠ none
  prevSrc : st.prev.getD s none = none

def isDead (g : Graph) (κ : ℚ) (st : DState) (u : ℕ) : Bool :=
  match st.key u with
  | some q => decide (q ≤ κ) &&
      (g.edgesOf u).all (fun e => !(oLt (some (q + e.2)) (st.key e.1)))
  | none => false

def liveF (g : Graph) (κ : ℚ) (st : DState) : Finset ℕ :=
  (Finset.range g.numNodes).filter (fun x => isDead g κ st x = false)

def dmeasure (g : Graph) (κ : ℚ) (st : DState) : ℕ :=
  st.pq.length + 2 * ∑ x ∈ liveF g κ st, (g.edgesOf x).length

structure FinalInv (g : Graph) (s : ℕ) (st : DState) : Prop where
  distLen : st.dist.length = g.numNodes
  prevLen : st.prev.length = g.numNodes
  srcZero : st.key s = some 0
  achievable : ∀ v q, st.key v = some q → Walk g s v q
  prevSpec : ∀ v u, st.prev.getD v none = some u → v ≠ s ∧
    ∃ qv w, st.key v = some qv ∧ (v, w) ∈ g.edgesOf u ∧
      Walk g s u (qv - w) ∧ ∃ qu, st.key u = some qu ∧ qu ≤ qv - w
  prevSet : ∀ v, v ≠ s → ∀ q, st.key v = some q → st.prev.getD v none ≠ none
  prevSrc : st.prev.getD s none = none

def mPath : List (List ℚ) := [[0, 1, 0], [0, 0, 1], [0, 0, 0]]

def gPath : Graph :=
  ⟨[⟨0, [(1, 1)], 0⟩, ⟨1, [(2, 1)], 0⟩, ⟨2, [], 0⟩]⟩

def mSelf : List (List ℚ) := [[0, 2], [2, 0]]

def gSelf : Graph := ⟨[⟨0, [(1, 2)], 0⟩, ⟨1, [(0, 2)], 0⟩]⟩

def mDisc : List (List ℚ) := [[0, 1], [0, 0]]

def gDisc : Graph := ⟨[⟨0, [(1, 1)], 0⟩, ⟨1, [], 0⟩]⟩

structure Leg where
  robotId : ℤ
  quantity : ℤ
  pkgStr : String
  house : ℕ
  src : ℕ
  sp : ℚ × List ℕ
  deriving Repr, DecidableEq

def defaultLeg : Leg := ⟨0, 0, "", 0, 0, (0, [])⟩

def displayLegsGo (g : Graph) (rid : ℤ) : ℕ → List (ℕ × ℤ) → List Leg
  | _, [] => []
  | prev, o :: rest =>
    { robotId := rid
      quantity := o.2
      pkgStr := if o.2 = 1 then "package" else "packages"
      house := o.1
      src := prev
      sp := g.shortestPathFull prev o.1 } :: displayLegsGo g rid o.1 rest

def Task.displayPath (t : Task) (g : Graph) : List Leg :=
  displayLegsGo g t.robotId 0 t.deliveryOrders

theorem batchesGo_accum (cap : ℤ) (orders : List (ℕ × ℤ)) :
    ∀ (gs : List (List (ℕ × ℤ))) (group : List (ℕ × ℤ)) (total : ℤ),
      batchesGo cap gs group total orders =
        gs ++ batchesGo cap [] group total orders := by
  induction orders with
  | nil =>
    intro gs group total
    simp only [batchesGo]
    by_cases h : group.isEmpty <;> simp [h]
  | cons o rest ih =>
    intro gs group total
    simp only [batchesGo]
    by_cases h0 : o.2 ≠ 0
    · by_cases hc : total + o.2 > cap
      · rw [if_pos h0, if_pos hc, if_pos h0, if_pos hc,
          ih (gs ++ [group]), ih ([] ++ [group])]
        simp
      · rw [if_pos h0, if_neg hc, if_pos h0, if_neg hc]
        exact ih gs (group ++ [o]) (total + o.2)
    · rw [if_neg h0, if_neg h0]
      exact ih gs group total

theorem batchesGo_join (cap : ℤ) (orders : List (ℕ × ℤ)) :
    ∀ (gs : List (List (ℕ × ℤ))) (group : List (ℕ × ℤ)) (total : ℤ),
      (batchesGo cap gs group total orders).flatten =
        gs.flatten ++ group ++ orders.filter (fun o => o.2 ≠ 0) := by
  induction orders with
  | nil =>
    intro gs group total
    simp only [batchesGo, List.filter_nil, List.append_nil]
    by_cases h : group.isEmpty
    · rw [if_pos h]
      simp [List.isEmpty_iff.mp h]
    · rw [if_neg h]
      simp
  | cons o rest ih =>
    intro gs group total
    simp only [batchesGo]
    by_cases h0 : o.2 ≠ 0
    · by_cases hc : total + o.2 > cap
      · rw [if_pos h0, if_pos hc, ih]
        simp [h0, List.filter_cons]
      · rw [if_pos h0, if_neg hc, ih]
        simp [h0, List.filter_cons]
    · rw [if_neg h0, ih]
      have h0' : o.2 = 0 := by simpa using h0
      simp [List.filter_cons, h0']

theorem sumQ_append (a b : List (ℕ × ℤ)) : sumQ (a ++ b) = sumQ a + sumQ b := by
  simp [sumQ]

theorem batchesGo_two_le (cap : ℤ) (orders : List (ℕ × ℤ)) :
    ∀ (gs : List (List (ℕ × ℤ))) (group : List (ℕ × ℤ)) (total : ℤ),
      total = sumQ group →
      (∀ b ∈ gs, 2 ≤ b.length → sumQ b ≤ cap) →
      (2 ≤ group.length → total ≤ cap) →
      ∀ b ∈ batchesGo cap gs group total orders, 2 ≤ b.length → sumQ b ≤ cap := by
  induction orders with
  | nil =>
    intro gs group total htot hgs hgrp b hb
    simp only [batchesGo] at hb
    by_cases h : group.isEmpty
    · rw [if_pos h] at hb
      exact hgs b hb
    · rw [if_neg h] at hb
      rcases List.mem_append.mp hb with h' | h'
      · exact hgs b h'
      · have : b = group := by simpa using h'
        subst this
        intro hlen
        exact htot ▸ hgrp hlen
  | cons o rest ih =>
    intro gs group total htot hgs hgrp b hb
    simp only [batchesGo] at hb
    by_cases h0 : o.2 ≠ 0
    · by_cases hc : total + o.2 > cap
      · rw [if_pos h0, if_pos hc] at hb
        refine ih (gs ++ [group]) [o] o.2 (by simp [sumQ]) ?_ (by simp) b hb
        intro b' hb'
        rcases List.mem_append.mp hb' with h' | h'
        · exact hgs b' h'
        · have : b' = group := by simpa using h'
          subst this
          intro hlen
          exact htot ▸ hgrp hlen
      · rw [if_pos h0, if_neg hc] at hb
        refine ih gs (group ++ [o]) (total + o.2)
          (by simp [sumQ_append, htot, sumQ]) hgs ?_ b hb
        intro _
        omega
    · rw [if_neg h0] at hb
      exact ih gs group total htot hgs hgrp b hb

theorem batchesGo_cap_le (cap : ℤ) (orders : List (ℕ × ℤ))
    (hords : ∀ o ∈ orders, o.2 ≤ cap) :
    ∀ (gs : List (List (ℕ × ℤ))) (group : List (ℕ × ℤ)) (total : ℤ),
      total = sumQ group →
      (group = [] → total = 0) →
      (group ≠ [] → total ≤ cap) →
      (∀ b ∈ gs, sumQ b ≤ cap) →
      ∀ b ∈ batchesGo cap gs group total orders, sumQ b ≤ cap := by
  induction orders with
  | nil =>
    intro gs group total htot _ hgrp hgs b hb
    simp only [batchesGo] at hb
    by_cases h : group.isEmpty
    · rw [if_pos h] at hb
      exact hgs b hb
    · rw [if_neg h] at hb
      rcases List.mem_append.mp hb with h' | h'
      · exact hgs b h'
      · have : b = group := by simpa using h'
        subst this
        exact htot ▸ hgrp (by simpa using h)
  | cons o rest ih =>
    intro gs group total htot hemp hgrp hgs b hb
    simp only [batchesGo] at hb
    have ho : o.2 ≤ cap := hords o (by simp)
    have hords' : ∀ o' ∈ rest, o'.2 ≤ cap := fun o' h' => hords o' (by simp [h'])
    by_cases h0 : o.2 ≠ 0
    · by_cases hc : total + o.2 > cap
      · rw [if_pos h0, if_pos hc] at hb
        -- the flushed group cannot be empty: otherwise total = 0 and
        -- total + o.2 > cap would contradict o.2 ≤ cap
        have hne : group ≠ [] := by
          intro h
          have := hemp h
          omega
        refine ih hords' (gs ++ [group]) [o] o.2 (by simp [sumQ])
          (by simp) (fun _ => ho) ?_ b hb
        intro b' hb'
        rcases List.mem_append.mp hb' with h' | h'
        · exact hgs b' h'
        · have : b' = group := by simpa using h'
          subst this
          exact htot ▸ hgrp hne
      · rw [if_pos h0, if_neg hc] at hb
        refine ih hords' gs (group ++ [o]) (total + o.2)
          (by simp [sumQ_append, htot, sumQ]) (by simp) (fun _ => by omega) hgs b hb
    · rw [if_neg h0] at hb
      exact ih hords' gs group total htot hemp hgrp hgs b hb

theorem taskQueue_join_filter (orders : List (ℕ × ℤ)) (robot : Robot) :
    ((TaskQueue.build orders robot).map Task.deliveryOrders).flatten =
      orders.filter (fun o => o.2 ≠ 0) ∧
    ∀ t ∈ TaskQueue.build orders robot, ∀ o ∈ t.deliveryOrders, o.2 ≠ 0 := by
  have hjoin : ((TaskQueue.build orders robot).map Task.deliveryOrders).flatten =
      orders.filter (fun o => o.2 ≠ 0) := by
    unfold TaskQueue.build batches
    rw [List.map_map]
    have : (Task.deliveryOrders ∘ fun grp => Task.mk robot.id grp) = id := rfl
    rw [this, List.map_id, batchesGo_join]
    simp
  refine ⟨hjoin, ?_⟩
  intro t ht o ho
  have hmem : o ∈ ((TaskQueue.build orders robot).map Task.deliveryOrders).flatten := by
    exact List.mem_flatten.mpr ⟨t.deliveryOrders, List.mem_map.mpr ⟨t, ht, rfl⟩, ho⟩
  rw [hjoin] at hmem
  simpa using (List.mem_filter.mp hmem).2

theorem taskQueue_two_orders_le_capacity (orders : List (ℕ × ℤ)) (robot : Robot)
    (t : Task) (ht : t ∈ TaskQueue.build orders robot)
    (hlen : 2 ≤ t.deliveryOrders.length) :
    sumQ t.deliveryOrders ≤ robot.carryingCapacity := by
  obtain ⟨b, hb, rfl⟩ := List.mem_map.mp ht
  exact batchesGo_two_le robot.carryingCapacity orders [] [] 0 (by simp [sumQ])
    (by simp) (by simp) b hb hlen

theorem taskQueue_two_orders_le_capacity_witness :
    Task.mk 101 [(2, 2), (3, 1)] ∈ TaskQueue.build [(1, 2), (2, 2), (3, 1)] ⟨101, 3⟩ ∧
    sumQ [((2 : ℕ), (2 : ℤ)), (3, 1)] ≤ (3 : ℤ) :=
  ⟨by decide, taskQueue_two_orders_le_capacity [(1, 2), (2, 2), (3, 1)] ⟨101, 3⟩
    (Task.mk 101 [(2, 2), (3, 1)]) (by decide) (by decide)⟩

theorem taskQueue_capacity_counterexample :
    TaskQueue.build [(1, 5)] ⟨101, 3⟩ = [⟨101, []⟩, ⟨101, [(1, 5)]⟩] ∧
    Task.mk 101 [(1, 5)] ∈ TaskQueue.build [(1, 5)] ⟨101, 3⟩ ∧
    ¬ sumQ (Task.mk 101 [(1, 5)]).deliveryOrders ≤ (Robot.mk 101 3).carryingCapacity := by
  decide

theorem taskQueue_capacity_of_small_orders (orders : List (ℕ × ℤ)) (robot : Robot)
    (hords : ∀ o ∈ orders, o.2 ≤ robot.carryingCapacity) :
    ∀ t ∈ TaskQueue.build orders robot,
      sumQ t.deliveryOrders ≤ robot.carryingCapacity := by
  intro t ht
  obtain ⟨b, hb, rfl⟩ := List.mem_map.mp ht
  exact batchesGo_cap_le robot.carryingCapacity orders hords [] [] 0 (by simp [sumQ])
    (fun _ => rfl) (fun h => absurd rfl h) (by simp) b hb

theorem taskQueue_capacity_of_small_orders_witness :
    sumQ (Task.mk 101 [(1, 2)]).deliveryOrders ≤ (Robot.mk 101 3).carryingCapacity :=
  taskQueue_capacity_of_small_orders [(1, 2), (2, 2), (3, 1)] ⟨101, 3⟩ (by decide)
    (Task.mk 101 [(1, 2)]) (by decide)

theorem batches_leading_empty (cap : ℤ) :
    ∀ (orders : List (ℕ × ℤ)) (o : ℕ × ℤ) (tl : List (ℕ × ℤ)),
      orders.filter (fun o => o.2 ≠ 0) = o :: tl → cap < o.2 →
      ∃ rest, batches cap orders = [] :: rest := by
  intro orders
  induction orders with
  | nil =>
    intro o tl h
    simp at h
  | cons x xs ih =>
    intro o tl h hcap
    by_cases h0 : x.2 ≠ 0
    · rw [List.filter_cons, if_pos (by simpa using h0)] at h
      injection h with h1 h2
      subst h1
      unfold batches batchesGo
      rw [if_pos h0, if_pos (show 0 + x.2 > cap by omega), batchesGo_accum]
      exact ⟨_, rfl⟩
    · rw [List.filter_cons, if_neg (by simpa using h0)] at h
      obtain ⟨rest, hrest⟩ := ih o tl h hcap
      refine ⟨rest, ?_⟩
      unfold batches batchesGo
      rw [if_neg h0]
      exact hrest

theorem taskQueue_leading_empty_batch (orders : List (ℕ × ℤ)) (robot : Robot)
    (o : ℕ × ℤ) (tl : List (ℕ × ℤ))
    (hfilter : orders.filter (fun o => o.2 ≠ 0) = o :: tl)
    (hcap : robot.carryingCapacity < o.2) :
    (TaskQueue.build orders robot).head? = some ⟨robot.id, []⟩ := by
  obtain ⟨rest, hrest⟩ := batches_leading_empty robot.carryingCapacity orders o tl
    hfilter hcap
  unfold TaskQueue.build
  rw [hrest]
  rfl

theorem taskQueue_leading_empty_batch_witness :
    (TaskQueue.build [(1, 5)] ⟨101, 3⟩).head? = some ⟨101, []⟩ :=
  taskQueue_leading_empty_batch [(1, 5)] ⟨101, 3⟩ (1, 5) [] (by decide) (by decide)

theorem oLt_none_left (b : Option ℚ) : oLt none b = false := by
  cases b <;> rfl

theorem oLt_some_none (x : ℚ) : oLt (some x) none = true := rfl

theorem oLt_some_some (x y : ℚ) : oLt (some x) (some y) = decide (x < y) := rfl

theorem oLt_eq_false_of_le {x y : ℚ} (h : x ≤ y) :
    oLt (some y) (some x) = false := by
  simp [oLt_some_some, not_lt.mpr h]

theorem le_of_oLt_eq_false {a : Option ℚ} {x : ℚ} (ha : a ≠ none)
    (h : oLt a (some x) = false) : ∃ y, a = some y ∧ x ≤ y := by
  cases a with
  | none => exact absurd rfl ha
  | some y =>
    refine ⟨y, rfl, ?_⟩
    simpa [oLt_some_some, not_lt] using h

theorem oLt_trans_false {a b c : Option ℚ} (h1 : oLt a b = false)
    (h2 : oLt b c = false) : oLt a c = false := by
  cases a with
  | none => cases c <;> simp [oLt]
  | some x =>
    cases b with
    | none => simp [oLt] at h1
    | some y =>
      cases c with
      | none => simp [oLt] at h2
      | some z =>
        simp only [oLt_some_some, decide_eq_false_iff_not, not_lt] at h1 h2 ⊢
        exact h2.trans h1

theorem getD_set_self {l : List (Option ℚ)} {i : ℕ} {a : Option ℚ}
    (h : i < l.length) : (l.set i a).getD i none = a := by
  simp [List.getD_eq_getElem?_getD, List.getElem?_set_self, h]

theorem getD_set_ne {l : List (Option ℚ)} {i j : ℕ} {a : Option ℚ}
    (h : i ≠ j) : (l.set i a).getD j none = l.getD j none := by
  simp [List.getD_eq_getElem?_getD, List.getElem?_set_ne h]

theorem getDN_set_self {l : List (Option ℕ)} {i : ℕ} {a : Option ℕ}
    (h : i < l.length) : (l.set i a).getD i none = a := by
  simp [List.getD_eq_getElem?_getD, List.getElem?_set_self, h]

theorem getDN_set_ne {l : List (Option ℕ)} {i j : ℕ} {a : Option ℕ}
    (h : i ≠ j) : (l.set i a).getD j none = l.getD j none := by
  simp [List.getD_eq_getElem?_getD, List.getElem?_set_ne h]

theorem popMin_cons_none {dist : List (Option ℚ)} {x : ℕ} {xs : List ℕ}
    (h : popMin dist xs = none) : popMin dist (x :: xs) = some (x, []) := by
  simp only [popMin, h]

theorem popMin_cons_some_lt {dist : List (Option ℚ)} {x y : ℕ} {xs ys : List ℕ}
    (h : popMin dist xs = some (y, ys))
    (hc : oLt (dist.getD y none) (dist.getD x none) = true) :
    popMin dist (x :: xs) = some (y, x :: ys) := by
  simp only [popMin, h]
  rw [if_pos hc]

theorem popMin_cons_some_ge {dist : List (Option ℚ)} {x y : ℕ} {xs ys : List ℕ}
    (h : popMin dist xs = some (y, ys))
    (hc : oLt (dist.getD y none) (dist.getD x none) = false) :
    popMin dist (x :: xs) = some (x, xs) := by
  simp only [popMin, h]
  rw [if_neg (by rw [hc]; simp)]

theorem oLt_irrefl (a : Option ℚ) : oLt a a = false := by
  cases a <;> simp [oLt]

theorem oLt_asymm {a b : Option ℚ} (h : oLt a b = true) : oLt b a = false := by
  cases a with
  | none => simp [oLt] at h
  | some x =>
    cases b with
    | none => simp [oLt]
    | some y =>
      simp only [oLt_some_some, decide_eq_true_eq] at h
      exact oLt_eq_false_of_le h.le

theorem popMin_eq_none_iff (dist : List (Option ℚ)) (pq : List ℕ) :
    popMin dist pq = none ↔ pq = [] := by
  cases pq with
  | nil => simp [popMin]
  | cons x xs =>
    simp only [iff_false, ne_eq, List.cons_ne_nil, not_false_eq_true, iff_true]
    cases hm : popMin dist xs with
    | none => simp [popMin_cons_none hm]
    | some p =>
      obtain ⟨y, ys⟩ := p
      by_cases hc : oLt (dist.getD y none) (dist.getD x none) = true
      · simp [popMin_cons_some_lt hm hc]
      · simp [popMin_cons_some_ge hm (Bool.not_eq_true _ ▸ hc)]

theorem popMin_perm (dist : List (Option ℚ)) :
    ∀ (pq : List ℕ) (u : ℕ) (rest : List ℕ),
      popMin dist pq = some (u, rest) → pq.Perm (u :: rest) := by
  intro pq
  induction pq with
  | nil => intro u rest h; simp [popMin] at h
  | cons x xs ih =>
    intro u rest h
    cases hm : popMin dist xs with
    | none =>
      rw [popMin_cons_none hm] at h
      simp only [Option.some.injEq, Prod.mk.injEq] at h
      obtain ⟨h1, h2⟩ := h
      subst h1
      subst h2
      have hxs : xs = [] := (popMin_eq_none_iff dist xs).mp hm
      subst hxs
      exact List.Perm.refl _
    | some p =>
      obtain ⟨y, ys⟩ := p
      by_cases hc : oLt (dist.getD y none) (dist.getD x none) = true
      · rw [popMin_cons_some_lt hm hc] at h
        simp only [Option.some.injEq, Prod.mk.injEq] at h
        obtain ⟨h1, h2⟩ := h
        subst h1
        subst h2
        exact ((ih _ ys hm).cons x).trans (List.Perm.swap _ x ys)
      · rw [popMin_cons_some_ge hm (Bool.not_eq_true _ ▸ hc)] at h
        simp only [Option.some.injEq, Prod.mk.injEq] at h
        obtain ⟨h1, h2⟩ := h
        subst h1
        subst h2
        exact List.Perm.refl _

theorem popMin_min (dist : List (Option ℚ)) :
    ∀ (pq : List ℕ) (u : ℕ) (rest : List ℕ),
      popMin dist pq = some (u, rest) →
      ∀ x ∈ pq, oLt (dist.getD x none) (dist.getD u none) = false := by
  intro pq
  induction pq with
  | nil => intro u rest h; simp [popMin] at h
  | cons x xs ih =>
    intro u rest h z hz
    cases hm : popMin dist xs with
    | none =>
      rw [popMin_cons_none hm] at h
      simp only [Option.some.injEq, Prod.mk.injEq] at h
      obtain ⟨h1, h2⟩ := h
      subst h1
      have hxs : xs = [] := (popMin_eq_none_iff dist xs).mp hm
      subst hxs
      have hzx : z = x := by simpa using hz
      subst hzx
      exact oLt_irrefl _
    | some p =>
      obtain ⟨y, ys⟩ := p
      by_cases hc : oLt (dist.getD y none) (dist.getD x none) = true
      · rw [popMin_cons_some_lt hm hc] at h
        simp only [Option.some.injEq, Prod.mk.injEq] at h
        obtain ⟨h1, h2⟩ := h
        subst h1
        rcases List.mem_cons.mp hz with rfl | hz'
        · exact oLt_asymm hc
        · exact ih _ ys hm z hz'
      · have hc' : oLt (dist.getD y none) (dist.getD x none) = false :=
          Bool.not_eq_true _ ▸ hc
        rw [popMin_cons_some_ge hm hc'] at h
        simp only [Option.some.injEq, Prod.mk.injEq] at h
        obtain ⟨h1, h2⟩ := h
        subst h1
        rcases List.mem_cons.mp hz with rfl | hz'
        · exact oLt_irrefl _
        · exact oLt_trans_false (ih _ ys hm z hz') hc'

theorem Walk.congr_weight {g : Graph} {u v : ℕ} {q q' : ℚ}
    (h : Walk g u v q) (e : q = q') : Walk g u v q' := e ▸ h

theorem walk_nonneg {g : Graph} (hWF : g.WF) {u v : ℕ} {q : ℚ}
    (h : Walk g u v q) : 0 ≤ q := by
  induction h with
  | nil => exact le_refl 0
  | cons he _ ih =>
    have := hWF.pos _ _ he
    linarith

theorem walk_lt {g : Graph} (hWF : g.WF) {u v : ℕ} {q : ℚ}
    (h : Walk g u v q) (hu : u < g.numNodes) : v < g.numNodes := by
  induction h with
  | nil => exact hu
  | cons he _ ih => exact ih (hWF.targets _ _ he)

theorem walk_snoc {g : Graph} {s u : ℕ} {q : ℚ} (h : Walk g s u q) :
    ∀ {v : ℕ} {w : ℚ}, (v, w) ∈ g.edgesOf u → Walk g s v (q + w) := by
  induction h with
  | nil a =>
    intro v w he
    exact (Walk.cons he (Walk.nil v)).congr_weight (by ring)
  | cons he' _ ih =>
    intro v w he
    exact (Walk.cons he' (ih he)).congr_weight (by ring)

theorem key_some_lt {st : DState} {n : ℕ} (hlen : st.dist.length = n)
    {u : ℕ} {q : ℚ} (h : st.key u = some q) : u < n := by
  by_contra hc
  have : st.dist.getD u none = none := by
    apply List.getD_eq_default
    omega
  rw [DState.key, this] at h
  exact absurd h (by simp)

theorem filterMap_if_fst_sublist (P : ℕ → Prop) [DecidablePred P] (w : ℕ → ℚ) :
    ∀ l : List ℕ,
      ((l.filterMap (fun j => if P j then some (j, w j) else none)).map Prod.fst).Sublist l := by
  intro l
  induction l with
  | nil => simp
  | cons x xs ih =>
    by_cases h : P x
    · simpa [List.filterMap_cons, h] using ih.cons₂ x
    · simpa [List.filterMap_cons, h] using ih.cons x

theorem ofMatrix_numNodes {m : List (List ℚ)} {g : Graph}
    (h : Graph.ofMatrix? m = some g) : g.numNodes = m.length := by
  unfold Graph.ofMatrix? at h
  by_cases hall : m.all (fun row => m.length ≤ row.length)
  · rw [if_pos hall] at h
    obtain rfl := Option.some.injEq _ _ ▸ h
    injection h with h'
    rw [← h']
    simp [Graph.numNodes]
  · rw [if_neg hall] at h
    exact absurd h (by simp)

theorem ofMatrix_edgesOf {m : List (List ℚ)} {g : Graph}
    (h : Graph.ofMatrix? m = some g) (u : ℕ) (hu : u < m.length) :
    g.edgesOf u = (List.range m.length).filterMap (fun j =>
      if epsilon < (m.getD u []).getD j 0 then some (j, (m.getD u []).getD j 0) else none) := by
  unfold Graph.ofMatrix? at h
  by_cases hall : m.all (fun row => m.length ≤ row.length)
  · rw [if_pos hall] at h
    injection h with h'
    rw [← h']
    unfold Graph.edgesOf
    rw [List.getD_eq_getElem?_getD]
    rw [List.getElem?_map, List.getElem?_range hu]
    simp
  · rw [if_neg hall] at h
    exact absurd h (by simp)

theorem ofMatrix_edgesOf_big {m : List (List ℚ)} {g : Graph}
    (h : Graph.ofMatrix? m = some g) (u : ℕ) (hu : ¬ u < m.length) :
    g.edgesOf u = [] := by
  unfold Graph.ofMatrix? at h
  by_cases hall : m.all (fun row => m.length ≤ row.length)
  · rw [if_pos hall] at h
    injection h with h'
    rw [← h']
    unfold Graph.edgesOf
    rw [List.getD_eq_getElem?_getD]
    rw [List.getElem?_map]
    have : (List.range m.length)[u]? = none := by
      rw [List.getElem?_eq_none]
      simpa using hu
    rw [this]
    simp
  · rw [if_neg hall] at h
    exact absurd h (by simp)

theorem epsilon_pos : (0 : ℚ) < epsilon := by norm_num [epsilon]

theorem ofMatrix_wf {m : List (List ℚ)} {g : Graph}
    (h : Graph.ofMatrix? m = some g) : g.WF := by
  have hn := ofMatrix_numNodes h
  constructor
  · intro u e he
    by_cases hu : u < m.length
    · rw [ofMatrix_edgesOf h u hu] at he
      obtain ⟨j, hj, hje⟩ := List.mem_filterMap.mp he
      by_cases hd : epsilon < (m.getD u []).getD j 0
      · rw [if_pos hd] at hje
        injection hje with hje'
        rw [← hje', hn]
        simpa using hj
      · rw [if_neg hd] at hje
        exact absurd hje (by simp)
    · rw [ofMatrix_edgesOf_big h u hu] at he
      exact absurd he (by simp)
  · intro u e he
    by_cases hu : u < m.length
    · rw [ofMatrix_edgesOf h u hu] at he
      obtain ⟨j, hj, hje⟩ := List.mem_filterMap.mp he
      by_cases hd : epsilon < (m.getD u []).getD j 0
      · rw [if_pos hd] at hje
        injection hje with hje'
        rw [← hje']
        exact lt_trans epsilon_pos hd
      · rw [if_neg hd] at hje
        exact absurd hje (by simp)
    · rw [ofMatrix_edgesOf_big h u hu] at he
      exact absurd he (by simp)
  · intro u
    by_cases hu : u < m.length
    · rw [ofMatrix_edgesOf h u hu]
      exact List.Sublist.nodup
        (filterMap_if_fst_sublist (fun j => epsilon < (m.getD u []).getD j 0)
          (fun j => (m.getD u []).getD j 0) (List.range m.length))
        (List.nodup_range m.length)
    · rw [ofMatrix_edgesOf_big h u hu]
      simp

theorem lookup_eq_some_of_mem {l : List (ℕ × ℚ)} (hnd : (l.map Prod.fst).Nodup)
    {v : ℕ} {w : ℚ} (hm : (v, w) ∈ l) : l.lookup v = some w := by
  induction l with
  | nil => simp at hm
  | cons p rest ih =>
    obtain ⟨a, b⟩ := p
    simp only [List.map_cons, List.nodup_cons] at hnd
    rcases List.mem_cons.mp hm with heq | hm'
    · obtain ⟨h1, h2⟩ := Prod.mk.injEq _ _ _ _ ▸ heq
      injection heq with h1 h2
      rw [h1, h2]
      simp [List.lookup]
    · have hva : v ≠ a := by
        intro hva
        exact hnd.1 (by
          subst hva
          exact List.mem_map.mpr ⟨(v, w), hm', rfl⟩)
      rw [List.lookup]
      rw [show (v == a) = false from beq_eq_false_iff_ne.mpr hva]
      exact ih hnd.2 hm'

theorem edgeW_of_mem {g : Graph} (hWF : g.WF) {u v : ℕ} {w : ℚ}
    (hm : (v, w) ∈ g.edgesOf u) : edgeW g u v = some w :=
  lookup_eq_some_of_mem (hWF.nodup u) hm

theorem listWeight_cons_cons (g : Graph) (x y : ℕ) (t : List ℕ) :
    listWeight g (x :: y :: t) =
      match edgeW g x y, listWeight g (y :: t) with
      | some w, some q => some (w + q)
      | _, _ => none := rfl

theorem listWeight_cons_cons_eq (g : Graph) {x y : ℕ} (t : List ℕ) {w q : ℚ}
    (hew : edgeW g x y = some w) (hlw : listWeight g (y :: t) = some q) :
    listWeight g (x :: y :: t) = some (w + q) := by
  rw [listWeight_cons_cons, hew, hlw]

theorem listWeight_cons_cons_inv (g : Graph) {x y : ℕ} {t : List ℕ} {q : ℚ}
    (h : listWeight g (x :: y :: t) = some q) :
    ∃ w q', edgeW g x y = some w ∧ listWeight g (y :: t) = some q' ∧ q = w + q' := by
  rw [listWeight_cons_cons] at h
  split at h
  · rename_i w q' hew hlw
    refine ⟨w, q', hew, hlw, ?_⟩
    injection h with h'
    exact h'.symm
  · exact absurd h (by simp)

theorem listWeight_snoc (g : Graph) :
    ∀ (xs : List ℕ) (u v : ℕ) (q w : ℚ),
      listWeight g (xs ++ [u]) = some q → edgeW g u v = some w →
      listWeight g (xs ++ [u, v]) = some (q + w) := by
  intro xs
  induction xs with
  | nil =>
    intro u v q w hq hw
    simp only [List.nil_append] at hq ⊢
    have hq0 : q = 0 := by
      have : listWeight g [u] = some 0 := rfl
      rw [this] at hq
      injection hq with h'
      exact h'.symm
    subst hq0
    have : listWeight g [u, v] = some (w + 0) :=
      listWeight_cons_cons_eq g [] hw rfl
    rw [this]
    congr 1
    ring
  | cons x xs ih =>
    intro u v q w hq hw
    obtain ⟨a, t, hat⟩ : ∃ a t, xs ++ [u] = a :: t := by
      cases xs with
      | nil => exact ⟨u, [], rfl⟩
      | cons y ys => exact ⟨y, ys ++ [u], rfl⟩
    have hq' : listWeight g (x :: a :: t) = some q := by
      rw [← hat]
      simpa using hq
    obtain ⟨w₁, q₁, hew, hlw, rfl⟩ := listWeight_cons_cons_inv g hq'
    have hlw' : listWeight g (xs ++ [u]) = some q₁ := by rw [hat]; exact hlw
    have hrec := ih u v q₁ w hlw' hw
    have hat2 : xs ++ [u, v] = a :: (t ++ [v]) := by
      rw [show xs ++ [u, v] = (xs ++ [u]) ++ [v] by simp, hat]
      rfl
    rw [hat2] at hrec
    have hfin : listWeight g (x :: a :: (t ++ [v])) = some (w₁ + (q₁ + w)) :=
      listWeight_cons_cons_eq g (t ++ [v]) hew hrec
    rw [List.cons_append, hat2, hfin]
    congr 1
    ring

theorem RelaxedOn.mono {g : Graph} {st st' : DState} {q : ℚ} {es : List (ℕ × ℚ)}
    (hmono : ∀ x r, st.key x = some r → ∃ r', st'.key x = some r' ∧ r' ≤ r)
    (h : RelaxedOn g st q es) : RelaxedOn g st' q es := by
  intro e he
  obtain ⟨r, hr, hle⟩ := h e he
  obtain ⟨r', hr', hle'⟩ := hmono e.1 r hr
  exact ⟨r', hr', le_trans hle' hle⟩

theorem oLt_some_eq_false {c : ℚ} {b : Option ℚ} (h : oLt (some c) b = false) :
    ∃ r, b = some r ∧ r ≤ c := by
  cases b with
  | none => simp [oLt] at h
  | some r =>
    refine ⟨r, rfl, ?_⟩
    simpa [oLt_some_some, not_lt] using h

theorem relaxOne_rinv {g : Graph} {s u : ℕ} {κ' : ℚ} (hWF : g.WF) {st : DState}
    (h : RInv g s u κ' st) {e : ℕ × ℚ} (he : e ∈ g.edgesOf u) :
    RInv g s u κ' (relaxOne u st e) ∧
    (∃ r, (relaxOne u st e).key e.1 = some r ∧ r ≤ κ' + e.2) ∧
    (∀ x q, st.key x = some q → ∃ q', (relaxOne u st e).key x = some q' ∧ q' ≤ q) ∧
    (∀ x, (relaxOne u st e).key x = st.key x ∨
      ∃ q', (relaxOne u st e).key x = some q' ∧ κ' < q') ∧
    ((relaxOne u st e).pq = st.pq ∨ (relaxOne u st e).pq = st.pq ++ [e.1]) := by
  obtain ⟨v, w⟩ := e
  have hw : 0 < w := hWF.pos u (v, w) he
  have hvlt : v < g.numNodes := hWF.targets u (v, w) he
  have hκ0 : 0 ≤ κ' := walk_nonneg hWF (h.achievable u κ' h.keyU)
  have halt : oadd (st.key u) w = some (κ' + w) := by rw [h.keyU]; rfl
  by_cases hfire : oLt (some (κ' + w)) (st.key v) = true
  · -- the edge fires: dist[v], prev[v] and the queue are updated
    have hst' : relaxOne u st (v, w) =
        ⟨st.dist.set v (some (κ' + w)), st.prev.set v (some u), st.pq ++ [v]⟩ := by
      simp only [relaxOne, halt]
      rw [if_pos hfire]
    rw [hst']
    set st' : DState :=
      ⟨st.dist.set v (some (κ' + w)), st.prev.set v (some u), st.pq ++ [v]⟩ with hst'def
    have hvs : v ≠ s := by
      intro hvs
      rw [hvs, h.srcZero] at hfire
      simp only [oLt_some_some, decide_eq_true_eq] at hfire
      linarith
    have hvu : v ≠ u := by
      intro hvu
      rw [hvu, h.keyU] at hfire
      simp only [oLt_some_some, decide_eq_true_eq] at hfire
      linarith
    have hkv : st'.key v = some (κ' + w) := by
      show (st.dist.set v _).getD v none = _
      exact getD_set_self (by rw [h.distLen]; exact hvlt)
    have hko : ∀ x, x ≠ v → st'.key x = st.key x := by
      intro x hx
      show (st.dist.set v _).getD x none = _
      exact getD_set_ne (fun hh => hx hh.symm)
    have hpv : st'.prev.getD v none = some u := by
      show (st.prev.set v _).getD v none = _
      exact getDN_set_self (by rw [h.prevLen]; exact hvlt)
    have hpo : ∀ x, x ≠ v → st'.prev.getD x none = st.prev.getD x none := by
      intro x hx
      show (st.prev.set v _).getD x none = _
      exact getDN_set_ne (fun hh => hx hh.symm)
    have hkeyU' : st'.key u = some κ' := (hko u (Ne.symm hvu)).trans h.keyU
    have hmono : ∀ x q, st.key x = some q → ∃ q', st'.key x = some q' ∧ q' ≤ q := by
      intro x q hx
      by_cases hxv : x = v
      · subst hxv
        rw [hx] at hfire
        simp only [oLt_some_some, decide_eq_true_eq] at hfire
        exact ⟨κ' + w, hkv, le_of_lt hfire⟩
      · exact ⟨q, (hko x hxv).trans hx, le_refl q⟩
    have hrinv : RInv g s u κ' st' := by
      refine ⟨?_, ?_, hkeyU', ?_, ?_, ?_, ?_, ?_, ?_, ?_, ?_⟩
      · show (st.dist.set v _).length = _
        rw [List.length_set]; exact h.distLen
      · show (st.prev.set v _).length = _
        rw [List.length_set]; exact h.prevLen
      · -- pqLt
        intro x hx
        rcases List.mem_append.mp hx with hx' | hx'
        · exact h.pqLt x hx'
        · rw [show x = v by simpa using hx']
          exact hvlt
      · -- pqKey
        intro x hx
        by_cases hxv : x = v
        · subst hxv
          exact ⟨κ' + w, hkv, by linarith⟩
        · rcases List.mem_append.mp hx with hx' | hx'
          · obtain ⟨qx, hqx, hqb⟩ := h.pqKey x hx'
            exact ⟨qx, (hko x hxv).trans hqx, hqb⟩
          · exact absurd (by simpa using hx') hxv
      · -- srcZero
        exact (hko s (Ne.symm hvs)).trans h.srcZero
      · -- achievable
        intro x q hx
        by_cases hxv : x = v
        · subst hxv
          rw [hkv] at hx
          injection hx with hx'
          exact (walk_snoc (h.achievable u κ' h.keyU) he).congr_weight hx'
        · exact h.achievable x q ((hko x hxv).symm.trans hx)
      · -- roqU
        intro x q hx
        by_cases hxv : x = v
        · subst hxv
          exact Or.inr (Or.inl (List.mem_append_right _ (by simp)))
        · rcases h.roqU x q ((hko x hxv).symm.trans hx) with hr | hr | hr
          · exact Or.inl (RelaxedOn.mono hmono hr)
          · exact Or.inr (Or.inl (List.mem_append_left _ hr))
          · exact Or.inr (Or.inr hr)
      · -- prevSpec
        intro v' u' hp
        by_cases hv'v : v' = v
        · subst hv'v
          rw [hpv] at hp
          injection hp with hp'
          subst hp'
          refine ⟨hvs, κ' + w, w, hkv, he,
            (h.achievable u κ' h.keyU).congr_weight (by ring), κ', hkeyU', le_of_eq (by ring)⟩
        · rw [hpo v' hv'v] at hp
          obtain ⟨hv's, qv, w', hkv', hee, hwalk, qu, hku', hle⟩ := h.prevSpec v' u' hp
          refine ⟨hv's, qv, w', (hko v' hv'v).trans hkv', hee, hwalk, ?_⟩
          by_cases hu'v : u' = v
          · subst hu'v
            rw [hku'] at hfire
            simp only [oLt_some_some, decide_eq_true_eq] at hfire
            exact ⟨κ' + w, hkv, le_trans (le_of_lt hfire) hle⟩
          · exact ⟨qu, (hko u' hu'v).trans hku', hle⟩
      · -- prevSet
        intro v' hv's q hx
        by_cases hv'v : v' = v
        · subst hv'v
          rw [hpv]
          simp
        · rw [hpo v' hv'v]
          exact h.prevSet v' hv's q ((hko v' hv'v).symm.trans hx)
      · -- prevSrc
        rw [hpo s (Ne.symm hvs)]
        exact h.prevSrc
    refine ⟨hrinv, ⟨κ' + w, hkv, le_refl _⟩, hmono, ?_, Or.inr rfl⟩
    intro x
    by_cases hxv : x = v
    · subst hxv
      exact Or.inr ⟨κ' + w, hkv, by linarith⟩
    · exact Or.inl (hko x hxv)
  · -- the edge does not fire: the state is unchanged
    have hst' : relaxOne u st (v, w) = st := by
      simp only [relaxOne, halt]
      rw [if_neg hfire]
    rw [hst']
    have hnf : oLt (some (κ' + w)) (st.key v) = false := Bool.not_eq_true _ ▸ hfire
    obtain ⟨r, hr, hle⟩ := oLt_some_eq_false hnf
    exact ⟨h, ⟨r, hr, hle⟩, fun x q hx => ⟨q, hx, le_refl q⟩, fun x => Or.inl rfl, Or.inl rfl⟩

theorem relaxEdges_no_change {g : Graph} {u : ℕ} {κ' : ℚ} :
    ∀ (es : List (ℕ × ℚ)) (st : DState), st.key u = some κ' →
      RelaxedOn g st κ' es →
      (∀ e ∈ es, e ∈ g.edgesOf u) →
      relaxEdges u es st = st := by
  intro es
  induction es with
  | nil => intro st _ _ _; rfl
  | cons e rest ih =>
    intro st hku hrel hsub
    obtain ⟨r, hr, hle⟩ := hrel e (by simp)
    have hstep : relaxOne u st e = st := by
      have halt : oadd (st.key u) e.2 = some (κ' + e.2) := by rw [hku]; rfl
      simp only [relaxOne, halt]
      rw [if_neg]
      rw [hr, oLt_some_some]
      simp [not_lt.mpr hle]
    show relaxEdges u rest (relaxOne u st e) = st
    rw [hstep]
    exact ih st hku (fun e' he' => hrel e' (by simp [he'])) (fun e' he' => hsub e' (by simp [he']))

theorem relaxEdges_rinv {g : Graph} {s u : ℕ} {κ' : ℚ} (hWF : g.WF) :
    ∀ (es : List (ℕ × ℚ)) (st : DState), (∀ e ∈ es, e ∈ g.edgesOf u) →
      RInv g s u κ' st →
      RInv g s u κ' (relaxEdges u es st) ∧
      RelaxedOn g (relaxEdges u es st) κ' es ∧
      (∀ x q, st.key x = some q →
        ∃ q', (relaxEdges u es st).key x = some q' ∧ q' ≤ q) ∧
      (∀ x, (relaxEdges u es st).key x = st.key x ∨
        ∃ q', (relaxEdges u es st).key x = some q' ∧ κ' < q') ∧
      (relaxEdges u es st).pq.length ≤ st.pq.length + es.length := by
  intro es
  induction es with
  | nil =>
    intro st _ h
    exact ⟨h, by intro e he; simp at he, fun x q hx => ⟨q, hx, le_refl q⟩,
      fun x => Or.inl rfl, by simp [relaxEdges]⟩
  | cons e rest ih =>
    intro st hsub h
    have he : e ∈ g.edgesOf u := hsub e (by simp)
    obtain ⟨h1, ⟨r, hr, hrle⟩, hmono1, hchg1, hpq1⟩ := relaxOne_rinv hWF h he
    have hsub' : ∀ e' ∈ rest, e' ∈ g.edgesOf u := fun e' he' => hsub e' (by simp [he'])
    obtain ⟨h2, hrel2, hmono2, hchg2, hpq2⟩ := ih (relaxOne u st e) hsub' h1
    have hfold : relaxEdges u (e :: rest) st = relaxEdges u rest (relaxOne u st e) := rfl
    rw [hfold]
    refine ⟨h2, ?_, ?_, ?_, ?_⟩
    · -- all of e :: rest relaxed in the final state
      intro e' he'
      rcases List.mem_cons.mp he' with rfl | he''
      · obtain ⟨r', hr', hrle'⟩ := hmono2 e'.1 r hr
        exact ⟨r', hr', le_trans hrle' hrle⟩
      · exact hrel2 e' he''
    · -- keys only decrease
      intro x q hx
      obtain ⟨q1, hq1, hle1⟩ := hmono1 x q hx
      obtain ⟨q2, hq2, hle2⟩ := hmono2 x q1 hq1
      exact ⟨q2, hq2, le_trans hle2 hle1⟩
    · -- changed keys exceed κ'
      intro x
      rcases hchg2 x with h2' | ⟨q', hq', hgt⟩
      · rw [h2']
        exact hchg1 x
      · exact Or.inr ⟨q', hq', hgt⟩
    · -- queue growth is bounded by the number of edges
      rcases hpq1 with hp | hp
      · rw [hp] at hpq2
        simp only [List.length_cons]
        omega
      · rw [hp] at hpq2
        simp only [List.length_append, List.length_cons, List.length_nil] at hpq2
        simp only [List.length_cons]
        omega

theorem oLt_some_eq_false_iff {c : ℚ} {b : Option ℚ} :
    oLt (some c) b = false ↔ ∃ r, b = some r ∧ r ≤ c := by
  constructor
  · exact oLt_some_eq_false
  · rintro ⟨r, rfl, h⟩
    simp [oLt_some_some, not_lt.mpr h]

theorem isDead_iff {g : Graph} {κ : ℚ} {st : DState} {u : ℕ} :
    isDead g κ st u = true ↔
      ∃ q, st.key u = some q ∧ q ≤ κ ∧ RelaxedAt g st u q := by
  unfold isDead
  cases hk : st.key u with
  | none => simp
  | some q =>
    simp only [Bool.and_eq_true, decide_eq_true_eq, List.all_eq_true,
      Bool.not_eq_true', Option.some.injEq]
    constructor
    · rintro ⟨h1, h2⟩
      refine ⟨q, rfl, h1, ?_⟩
      intro e he
      exact oLt_some_eq_false (h2 e he)
    · rintro ⟨q', hq', h1, h2⟩
      subst hq'
      refine ⟨h1, fun e he => ?_⟩
      exact oLt_some_eq_false_iff.mpr (h2 e he)

theorem isDead_mono {g : Graph} {κ κ' : ℚ} {st st' : DState} (hκ : κ ≤ κ')
    (hmono : ∀ x q, st.key x = some q → ∃ q', st'.key x = some q' ∧ q' ≤ q)
    (hchg : ∀ x, st'.key x = st.key x ∨ ∃ q', st'.key x = some q' ∧ κ' < q') :
    ∀ x, isDead g κ st x = true → isDead g κ' st' x = true := by
  intro x hx
  obtain ⟨q, hk, hqκ, hrel⟩ := isDead_iff.mp hx
  have hk' : st'.key x = some q := by
    rcases hchg x with h | ⟨q'', hq'', hgt⟩
    · rw [h]; exact hk
    · obtain ⟨q₀, hq₀, hle₀⟩ := hmono x q hk
      rw [hq₀] at hq''
      injection hq'' with hq'''
      subst hq'''
      linarith
  exact isDead_iff.mpr ⟨q, hk', le_trans hqκ hκ, RelaxedOn.mono hmono hrel⟩

theorem liveF_subset {g : Graph} {κ κ' : ℚ} {st st' : DState}
    (hdead : ∀ x, isDead g κ st x = true → isDead g κ' st' x = true) :
    liveF g κ' st' ⊆ liveF g κ st := by
  intro x hx
  simp only [liveF, Finset.mem_filter, Finset.mem_range] at hx ⊢
  refine ⟨hx.1, ?_⟩
  by_contra hc
  have : isDead g κ st x = true := by
    cases hh : isDead g κ st x
    · exact absurd hh hc
    · rfl
  rw [hdead x this] at hx
  exact absurd hx.2 (by simp)

theorem dijkstra_step {g : Graph} {s : ℕ} {κ : ℚ} {st : DState} (hWF : g.WF)
    (hInv : Inv g s κ st) {u : ℕ} {rest : List ℕ}
    (hpop : popMin st.dist st.pq = some (u, rest)) :
    ∃ κ', κ ≤ κ' ∧ st.key u = some κ' ∧
      Inv g s κ' (relaxEdges u (g.edgesOf u) ⟨st.dist, st.prev, rest⟩) ∧
      dmeasure g κ' (relaxEdges u (g.edgesOf u) ⟨st.dist, st.prev, rest⟩) + 1 ≤
        dmeasure g κ st := by
  have hperm := popMin_perm st.dist st.pq u rest hpop
  have humem : u ∈ st.pq := hperm.mem_iff.mpr (by simp)
  obtain ⟨κ', hκ'u, hκκ'⟩ := hInv.pqKey u humem
  have hulr : u < g.numNodes := hInv.pqLt u humem
  set st₁ : DState := ⟨st.dist, st.prev, rest⟩ with hst₁
  have hkey₁ : ∀ x, st₁.key x = st.key x := fun x => rfl
  have hrestlen : st.pq.length = rest.length + 1 := by
    have := hperm.length_eq
    simpa using this
  have hrinv₁ : RInv g s u κ' st₁ := by
    refine ⟨hInv.distLen, hInv.prevLen, hκ'u, ?_, ?_, hInv.srcZero, hInv.achievable,
      ?_, hInv.prevSpec, hInv.prevSet, hInv.prevSrc⟩
    · intro x hx
      exact hInv.pqLt x (hperm.mem_iff.mpr (by simp [hx]))
    · intro x hx
      have hxpq : x ∈ st.pq := hperm.mem_iff.mpr (by simp [hx])
      obtain ⟨qx, hqx, _⟩ := hInv.pqKey x hxpq
      have hmin := popMin_min st.dist st.pq u rest hpop x hxpq
      have hmin' : oLt (some qx) (some κ') = false := by
        rw [← hqx, ← hκ'u]
        exact hmin
      simp only [oLt_some_some, decide_eq_false_iff_not, not_lt] at hmin'
      exact ⟨qx, hqx, hmin'⟩
    · intro x q hx
      rcases hInv.roq x q hx with hr | hr
      · exact Or.inl hr
      · rcases List.mem_cons.mp (hperm.mem_iff.mp hr) with rfl | hr'
        · exact Or.inr (Or.inr rfl)
        · exact Or.inr (Or.inl hr')
  obtain ⟨h2, hrel2, hmono2, hchg2, hpq2⟩ :=
    relaxEdges_rinv hWF (g.edgesOf u) st₁ (fun e he => he) hrinv₁
  set st₂ : DState := relaxEdges u (g.edgesOf u) st₁ with hst₂
  have hInv₂ : Inv g s κ' st₂ := by
    refine ⟨h2.distLen, h2.prevLen, h2.pqLt, h2.pqKey, h2.srcZero, h2.achievable,
      ?_, h2.prevSpec, h2.prevSet, h2.prevSrc⟩
    intro x q hx
    rcases h2.roqU x q hx with hr | hr | hr
    · exact Or.inl hr
    · exact Or.inr hr
    · subst hr
      rw [h2.keyU] at hx
      injection hx with hx'
      subst hx'
      exact Or.inl hrel2
  refine ⟨κ', hκκ', hκ'u, hInv₂, ?_⟩
  -- the measure decreases
  have hmono2' : ∀ x q, st.key x = some q → ∃ q', st₂.key x = some q' ∧ q' ≤ q := by
    intro x q hx
    exact hmono2 x q ((hkey₁ x).trans hx)
  have hchg2' : ∀ x, st₂.key x = st.key x ∨ ∃ q', st₂.key x = some q' ∧ κ' < q' := by
    intro x
    rcases hchg2 x with h | h
    · exact Or.inl (h.trans (hkey₁ x))
    · exact Or.inr h
  have hdead : ∀ x, isDead g κ st x = true → isDead g κ' st₂ x = true :=
    isDead_mono hκκ' hmono2' hchg2'
  by_cases hdu : isDead g κ st u = true
  · -- the popped node was already settled and relaxed: nothing fires
    obtain ⟨q, hk, hqκ, hrel⟩ := isDead_iff.mp hdu
    rw [hκ'u] at hk
    injection hk with hk'
    subst hk'
    have hnochange : relaxEdges u (g.edgesOf u) st₁ = st₁ :=
      relaxEdges_no_change (g.edgesOf u) st₁ hκ'u hrel (fun e he => he)
    have hS : (∑ x ∈ liveF g κ' st₂, (g.edgesOf x).length) ≤
        ∑ x ∈ liveF g κ st, (g.edgesOf x).length :=
      Finset.sum_le_sum_of_subset (liveF_subset hdead)
    have hpqlen : st₂.pq.length = rest.length := by
      rw [hst₂, hnochange]
    unfold dmeasure
    omega
  · -- the popped node was live; afterwards it is dead
    have hdu₂ : isDead g κ' st₂ u = true :=
      isDead_iff.mpr ⟨κ', h2.keyU, le_refl κ', hrel2⟩
    have hulive : u ∈ liveF g κ st := by
      simp only [liveF, Finset.mem_filter, Finset.mem_range]
      refine ⟨hulr, ?_⟩
      cases hh : isDead g κ st u
      · rfl
      · exact absurd hh hdu
    have hsub' : liveF g κ' st₂ ⊆ (liveF g κ st).erase u := by
      intro x hx
      rw [Finset.mem_erase]
      constructor
      · intro hxu
        subst hxu
        simp only [liveF, Finset.mem_filter] at hx
        rw [hdu₂] at hx
        exact absurd hx.2 (by simp)
      · exact liveF_subset hdead hx
    have hS' : (∑ x ∈ liveF g κ' st₂, (g.edgesOf x).length) +
        (g.edgesOf u).length ≤ ∑ x ∈ liveF g κ st, (g.edgesOf x).length := by
      have h1 : (∑ x ∈ liveF g κ' st₂, (g.edgesOf x).length) ≤
          ∑ x ∈ (liveF g κ st).erase u, (g.edgesOf x).length :=
        Finset.sum_le_sum_of_subset hsub'
      have h2' : (∑ x ∈ (liveF g κ st).erase u, (g.edgesOf x).length) +
          (g.edgesOf u).length = ∑ x ∈ liveF g κ st, (g.edgesOf x).length :=
        Finset.sum_erase_add _ _ hulive
      omega
    have hpqlen : st₂.pq.length ≤ rest.length + (g.edgesOf u).length := by
      have := hpq2
      simpa using this
    unfold dmeasure
    omega

theorem walk_propagate {g : Graph} (hWF : g.WF) (st : DState)
    (hroq : ∀ x q, st.key x = some q → RelaxedAt g st x q ∨ x ∈ st.pq) :
    ∀ {a b : ℕ} {r : ℚ}, Walk g a b r → ∀ c, st.key a = some c →
      (∃ qb, st.key b = some qb ∧ qb ≤ c + r) ∨
      (∃ x ∈ st.pq, ∃ qx, st.key x = some qx ∧ qx ≤ c + r) := by
  intro a b r hwalk
  induction hwalk with
  | nil a =>
    intro c hc
    exact Or.inl ⟨c, hc, le_of_eq (by ring)⟩
  | cons he hw ih =>
    intro c hc
    rename_i a' v b' w q
    have hq0 : 0 ≤ q := walk_nonneg hWF hw
    have hw0 : 0 < w := hWF.pos _ _ he
    rcases hroq a' c hc with hr | hr
    · obtain ⟨rv, hrv, hrle⟩ := hr (v, w) he
      rcases ih rv hrv with ⟨qb, hqb, hble⟩ | ⟨x, hx, qx, hqx, hxle⟩
      · exact Or.inl ⟨qb, hqb, by linarith⟩
      · exact Or.inr ⟨x, hx, qx, hqx, by linarith⟩
    · exact Or.inr ⟨a', hr, c, hc, by linarith⟩

theorem Inv.toFinal {g : Graph} {s : ℕ} {κ : ℚ} {st : DState} (h : Inv g s κ st) :
    FinalInv g s st :=
  ⟨h.distLen, h.prevLen, h.srcZero, h.achievable, h.prevSpec, h.prevSet, h.prevSrc⟩

theorem dijkstraLoop_succ_none {g : Graph} {dest fuel : ℕ} {st : DState}
    (h : popMin st.dist st.pq = none) :
    dijkstraLoop g dest (fuel + 1) st = st := by
  simp [dijkstraLoop, h]

theorem dijkstraLoop_succ_dest {g : Graph} {dest fuel : ℕ} {st : DState}
    {rest : List ℕ} (h : popMin st.dist st.pq = some (dest, rest)) :
    dijkstraLoop g dest (fuel + 1) st = ⟨st.dist, st.prev, rest⟩ := by
  simp [dijkstraLoop, h]

theorem dijkstraLoop_succ_step {g : Graph} {dest fuel : ℕ} {st : DState}
    {u : ℕ} {rest : List ℕ} (h : popMin st.dist st.pq = some (u, rest))
    (hne : u ≠ dest) :
    dijkstraLoop g dest (fuel + 1) st =
      dijkstraLoop g dest fuel (relaxEdges u (g.edgesOf u) ⟨st.dist, st.prev, rest⟩) := by
  simp [dijkstraLoop, h, hne]

theorem dijkstraLoop_master {g : Graph} {s d : ℕ} (hWF : g.WF) :
    ∀ (fuel : ℕ) (κ : ℚ) (st : DState), Inv g s κ st → dmeasure g κ st < fuel →
      FinalInv g s (dijkstraLoop g d fuel st) ∧
      (∀ r, Walk g s d r →
        ∃ qd, (dijkstraLoop g d fuel st).key d = some qd ∧ qd ≤ r) := by
  intro fuel
  induction fuel with
  | zero =>
    intro κ st _ hm
    exact absurd hm (Nat.not_lt_zero _)
  | succ fuel ih =>
    intro κ st hInv hm
    cases hpop : popMin st.dist st.pq with
    | none =>
      rw [dijkstraLoop_succ_none hpop]
      refine ⟨hInv.toFinal, ?_⟩
      intro r hwalk
      have hpq : st.pq = [] := (popMin_eq_none_iff _ _).mp hpop
      rcases walk_propagate hWF st
          (fun x q hx => (hInv.roq x q hx).imp_right id) hwalk 0 hInv.srcZero with
        ⟨qd, hqd, hle⟩ | ⟨x, hx, _⟩
      · exact ⟨qd, hqd, by linarith⟩
      · rw [hpq] at hx
        exact absurd hx (by simp)
    | some p =>
      obtain ⟨u, rest⟩ := p
      by_cases hud : u = d
      · subst hud
        rw [dijkstraLoop_succ_dest hpop]
        have hkeyeq : ∀ x, (⟨st.dist, st.prev, rest⟩ : DState).key x = st.key x :=
          fun x => rfl
        refine ⟨?_, ?_⟩
        · exact ⟨hInv.distLen, hInv.prevLen, hInv.srcZero, hInv.achievable,
            hInv.prevSpec, hInv.prevSet, hInv.prevSrc⟩
        · intro r hwalk
          have hperm := popMin_perm st.dist st.pq u rest hpop
          have humem : u ∈ st.pq := hperm.mem_iff.mpr (by simp)
          obtain ⟨κ', hκ'u, _⟩ := hInv.pqKey u humem
          rcases walk_propagate hWF st
              (fun x q hx => (hInv.roq x q hx).imp_right id) hwalk 0 hInv.srcZero with
            ⟨qd, hqd, hle⟩ | ⟨x, hx, qx, hqx, hxle⟩
          · exact ⟨qd, hqd, by linarith⟩
          · have hmin := popMin_min st.dist st.pq u rest hpop x hx
            have hmin' : oLt (some qx) (some κ') = false := by
              rw [← hqx, ← hκ'u]
              exact hmin
            simp only [oLt_some_some, decide_eq_false_iff_not, not_lt] at hmin'
            exact ⟨κ', hκ'u, by linarith⟩
      · rw [dijkstraLoop_succ_step hpop hud]
        obtain ⟨κ', hκκ', hκ'u, hInv₂, hm₂⟩ := dijkstra_step hWF hInv hpop
        exact ih κ' _ hInv₂ (by omega)

theorem getD_replicate_none {n x : ℕ} :
    (List.replicate n (none : Option ℚ)).getD x none = none := by
  rw [List.getD_eq_getElem?_getD, List.getElem?_replicate]
  by_cases h : x < n <;> simp [h]

theorem getDN_replicate_none {n x : ℕ} :
    (List.replicate n (none : Option ℕ)).getD x none = none := by
  rw [List.getD_eq_getElem?_getD, List.getElem?_replicate]
  by_cases h : x < n <;> simp [h]

theorem dijkstraInit_key_src {g : Graph} {s : ℕ} (hs : s < g.numNodes) :
    (g.dijkstraInit s).key s = some 0 := by
  show ((List.replicate g.numNodes (none : Option ℚ)).set s (some 0)).getD s none = _
  exact getD_set_self (by rw [List.length_replicate]; exact hs)

theorem dijkstraInit_key_other {g : Graph} {s x : ℕ} (hx : x ≠ s) :
    (g.dijkstraInit s).key x = none := by
  show ((List.replicate g.numNodes (none : Option ℚ)).set s (some 0)).getD x none = _
  rw [getD_set_ne (fun hh => hx hh.symm)]
  exact getD_replicate_none

theorem dijkstra_init_inv {g : Graph} {s : ℕ} (hs : s < g.numNodes) :
    Inv g s (-1) (g.dijkstraInit s) := by
  have hksrc := dijkstraInit_key_src (g := g) hs
  have hprev : ∀ x, (g.dijkstraInit s).prev.getD x none = none :=
    fun x => getDN_replicate_none
  refine ⟨?_, ?_, ?_, ?_, hksrc, ?_, ?_, ?_, ?_, hprev s⟩
  · show ((List.replicate g.numNodes (none : Option ℚ)).set s (some 0)).length = _
    rw [List.length_set, List.length_replicate]
  · show (List.replicate g.numNodes (none : Option ℕ)).length = _
    rw [List.length_replicate]
  · intro x hx
    rw [show x = s by simpa [Graph.dijkstraInit] using hx]
    exact hs
  · intro x hx
    rw [show x = s by simpa [Graph.dijkstraInit] using hx]
    exact ⟨0, hksrc, by norm_num⟩
  · intro v q hv
    by_cases hvs : v = s
    · subst hvs
      rw [hksrc] at hv
      injection hv with hv'
      exact hv' ▸ Walk.nil v
    · rw [dijkstraInit_key_other hvs] at hv
      exact absurd hv (by simp)
  · intro x q hx
    by_cases hxs : x = s
    · subst hxs
      exact Or.inr (by simp [Graph.dijkstraInit])
    · rw [dijkstraInit_key_other hxs] at hx
      exact absurd hx (by simp)
  · intro v u hp
    rw [hprev v] at hp
    exact absurd hp (by simp)
  · intro v hvs q hv
    rw [dijkstraInit_key_other hvs] at hv
    exact absurd hv (by simp)

theorem edgesOf_mk_cons_succ (nd : Node) (l : List Node) (i : ℕ)
    (h : i < l.length) :
    Graph.edgesOf ⟨nd :: l⟩ (i + 1) = Graph.edgesOf ⟨l⟩ i := by
  unfold Graph.edgesOf
  show ((nd :: l).getD (i + 1) _).edges = _
  rw [List.getD_cons_succ, List.getD_eq_getElem _ _ h, List.getD_eq_getElem _ _ h]

theorem sum_edgesOf (l : List Node) :
    ∑ x ∈ Finset.range l.length, (Graph.edgesOf ⟨l⟩ x).length =
      (l.map (fun nd => nd.edges.length)).sum := by
  induction l with
  | nil => simp
  | cons nd l ih =>
    rw [List.length_cons, Finset.sum_range_succ']
    have hsucc : ∀ i ∈ Finset.range l.length,
        (Graph.edgesOf ⟨nd :: l⟩ (i + 1)).length = (Graph.edgesOf ⟨l⟩ i).length := by
      intro i hi
      rw [edgesOf_mk_cons_succ nd l i (by simpa using hi)]
    rw [Finset.sum_congr rfl hsucc, ih]
    have h0 : Graph.edgesOf ⟨nd :: l⟩ 0 = nd.edges := rfl
    rw [h0]
    simp [add_comm]

theorem totalEdges_sum (g : Graph) :
    ∑ x ∈ Finset.range g.numNodes, (g.edgesOf x).length = g.totalEdges := by
  obtain ⟨l⟩ := g
  exact sum_edgesOf l

theorem dmeasure_le (g : Graph) (κ : ℚ) (st : DState) :
    dmeasure g κ st ≤ st.pq.length + 2 * g.totalEdges := by
  unfold dmeasure
  have hsub : liveF g κ st ⊆ Finset.range g.numNodes := Finset.filter_subset _ _
  have hsum : (∑ x ∈ liveF g κ st, (g.edgesOf x).length) ≤ g.totalEdges := by
    have h := Finset.sum_le_sum_of_subset
      (f := fun x => (g.edgesOf x).length) hsub
    rw [totalEdges_sum] at h
    simpa using h
  omega

theorem dijkstraFinal_spec {g : Graph} {s d : ℕ} (hWF : g.WF)
    (hs : s < g.numNodes) :
    FinalInv g s (g.dijkstraFinal s d) ∧
    ∀ r, Walk g s d r →
      ∃ qd, (g.dijkstraFinal s d).key d = some qd ∧ qd ≤ r := by
  have hinit := dijkstra_init_inv (g := g) hs
  have hpq : (g.dijkstraInit s).pq.length = 1 := rfl
  have hm : dmeasure g (-1) (g.dijkstraInit s) < 2 * g.totalEdges + 2 := by
    have := dmeasure_le g (-1) (g.dijkstraInit s)
    omega
  exact dijkstraLoop_master hWF _ _ _ hinit hm

theorem oLt_lt_trans {a : Option ℚ} {c c' : ℚ} (h : oLt a (some c) = true)
    (hcc : c < c') : oLt a (some c') = true := by
  cases a with
  | none => simp [oLt] at h
  | some x =>
    simp only [oLt_some_some, decide_eq_true_eq] at h ⊢
    exact lt_trans h hcc

theorem prev_chain {g : Graph} {s : ℕ} (hWF : g.WF) {st : DState}
    (hFI : FinalInv g s st) :
    ∀ (m : ℕ) (v : ℕ) (qv : ℚ), st.key v = some qv →
      (∀ r, Walk g s v r → qv ≤ r) →
      ((Finset.range g.numNodes).filter
        (fun x => oLt (st.key x) (some qv) = true)).card ≤ m →
      ∀ fuel, m < fuel →
        ∃ l, walkPrev st.prev fuel v = v :: l ∧
          (v :: l).getLast? = some s ∧
          listWeight g ((v :: l).reverse) = some qv := by
  intro m
  induction m with
  | zero =>
    intro v qv hkv hopt hcard fuel hfuel
    obtain ⟨f, rfl⟩ : ∃ f, fuel = f + 1 := ⟨fuel - 1, by omega⟩
    by_cases hvs : v = s
    · subst hvs
      have hq0 : qv = 0 := by
        rw [hFI.srcZero] at hkv
        injection hkv with h'
        exact h'.symm
      subst hq0
      refine ⟨[], ?_, rfl, rfl⟩
      show (match st.prev.getD v none with
        | none => [v]
        | some p => v :: walkPrev st.prev f p) = [v]
      rw [hFI.prevSrc]
    · exfalso
      have hpne := hFI.prevSet v hvs qv hkv
      obtain ⟨u, hpu⟩ : ∃ u, st.prev.getD v none = some u := by
        cases hpp : st.prev.getD v none with
        | none => exact absurd hpp hpne
        | some u => exact ⟨u, rfl⟩
      obtain ⟨_, qv', w, hkv', hew, hwalk, qu, hku, hle⟩ := hFI.prevSpec v u hpu
      rw [hkv] at hkv'
      injection hkv' with hqq
      subst hqq
      have hw : 0 < w := hWF.pos u (v, w) hew
      have hult : u < g.numNodes := key_some_lt hFI.distLen hku
      have humem : u ∈ (Finset.range g.numNodes).filter
          (fun x => oLt (st.key x) (some qv) = true) := by
        rw [Finset.mem_filter, Finset.mem_range]
        refine ⟨hult, ?_⟩
        rw [hku, oLt_some_some]
        simp only [decide_eq_true_eq]
        linarith
      have := Finset.card_pos.mpr ⟨u, humem⟩
      omega
  | succ m' ih =>
    intro v qv hkv hopt hcard fuel hfuel
    obtain ⟨f, rfl⟩ : ∃ f, fuel = f + 1 := ⟨fuel - 1, by omega⟩
    by_cases hvs : v = s
    · subst hvs
      have hq0 : qv = 0 := by
        rw [hFI.srcZero] at hkv
        injection hkv with h'
        exact h'.symm
      subst hq0
      refine ⟨[], ?_, rfl, rfl⟩
      show (match st.prev.getD v none with
        | none => [v]
        | some p => v :: walkPrev st.prev f p) = [v]
      rw [hFI.prevSrc]
    · have hpne := hFI.prevSet v hvs qv hkv
      obtain ⟨u, hpu⟩ : ∃ u, st.prev.getD v none = some u := by
        cases hpp : st.prev.getD v none with
        | none => exact absurd hpp hpne
        | some u => exact ⟨u, rfl⟩
      obtain ⟨_, qv', w, hkv', hew, hwalk, qu, hku, hle⟩ := hFI.prevSpec v u hpu
      rw [hkv] at hkv'
      injection hkv' with hqq
      subst hqq
      have hw : 0 < w := hWF.pos u (v, w) hew
      have hult : u < g.numNodes := key_some_lt hFI.distLen hku
      -- u's key is exactly qv - w and it is optimal for u
      have hoptu : ∀ r, Walk g s u r → qv - w ≤ r := by
        intro r hr
        have := hopt (r + w) (walk_snoc hr hew)
        linarith
      have hqu : qu = qv - w := by
        have h1 : qv - w ≤ qu := hoptu qu (hFI.achievable u qu hku)
        linarith
      subst hqu
      -- the set of strictly smaller keys shrinks
      have humem : u ∈ (Finset.range g.numNodes).filter
          (fun x => oLt (st.key x) (some qv) = true) := by
        rw [Finset.mem_filter, Finset.mem_range]
        refine ⟨hult, ?_⟩
        rw [hku, oLt_some_some]
        simp only [decide_eq_true_eq]
        linarith
      have hsub : (Finset.range g.numNodes).filter
            (fun x => oLt (st.key x) (some (qv - w)) = true) ⊆
          ((Finset.range g.numNodes).filter
            (fun x => oLt (st.key x) (some qv) = true)).erase u := by
        intro x hx
        rw [Finset.mem_filter, Finset.mem_range] at hx
        rw [Finset.mem_erase]
        constructor
        · intro hxu
          subst hxu
          rw [hku] at hx
          have := hx.2
          rw [oLt_some_some] at this
          simp only [decide_eq_true_eq] at this
          linarith
        · rw [Finset.mem_filter, Finset.mem_range]
          exact ⟨hx.1, oLt_lt_trans hx.2 (by linarith)⟩
      have hcard' : ((Finset.range g.numNodes).filter
          (fun x => oLt (st.key x) (some (qv - w)) = true)).card ≤ m' := by
        have h1 := Finset.card_le_card hsub
        have h2 := Finset.card_erase_of_mem humem
        omega
      obtain ⟨l', hwp', hlast', hlw'⟩ :=
        ih u (qv - w) hku hoptu hcard' f (by omega)
      refine ⟨u :: l', ?_, ?_, ?_⟩
      · show (match st.prev.getD v none with
          | none => [v]
          | some p => v :: walkPrev st.prev f p) = v :: u :: l'
        rw [hpu]
        show v :: walkPrev st.prev f u = v :: u :: l'
        rw [hwp']
      · rw [List.getLast?_cons_cons]
        exact hlast'
      · have hrev : (v :: u :: l').reverse = (u :: l').reverse ++ [v] := by
          simp
        have hrev' : (u :: l').reverse = l'.reverse ++ [u] := by
          simp
        have hlw'' : listWeight g (l'.reverse ++ [u]) = some (qv - w) := by
          rw [← hrev']
          exact hlw'
        have hewv : edgeW g u v = some w := edgeW_of_mem hWF hew
        have := listWeight_snoc g l'.reverse u v (qv - w) w hlw'' hewv
        rw [hrev, hrev']
        have harr : l'.reverse ++ [u] ++ [v] = l'.reverse ++ [u, v] := by simp
        rw [harr, this]
        congr 1
        ring

theorem shortestPath_correct (m : List (List ℚ)) (g : Graph)
    (hm : Graph.ofMatrix? m = some g)
    (hsq : ∀ row ∈ m, row.length = m.length)
    (hnn : ∀ row ∈ m, ∀ x ∈ row, 0 ≤ x)
    (s d : ℕ) (hs : s < g.numNodes) (hd : d < g.numNodes)
    (hsd : s ≠ d) (hreach : Reach g s d) :
    (g.shortestPathFull s d).2.head? = some s ∧
    (g.shortestPathFull s d).2.getLast? = some d ∧
    listWeight g (g.shortestPathFull s d).2 = some (g.shortestPathFull s d).1 ∧
    ∀ r, Walk g s d r → (g.shortestPathFull s d).1 ≤ r := by
  have hWF := ofMatrix_wf hm
  obtain ⟨hFI, hopt⟩ := dijkstraFinal_spec (d := d) hWF hs
  obtain ⟨r₀, hw₀⟩ := hreach
  obtain ⟨qd, hkd, _⟩ := hopt r₀ hw₀
  have hoptv : ∀ r, Walk g s d r → qd ≤ r := by
    intro r hw
    obtain ⟨qd', hkd', hle⟩ := hopt r hw
    rw [hkd] at hkd'
    injection hkd' with h'
    subst h'
    exact hle
  have hpne := hFI.prevSet d (Ne.symm hsd) qd hkd
  obtain ⟨u0, hpu0⟩ : ∃ u0, (g.dijkstraFinal s d).prev.getD d none = some u0 := by
    cases hpp : (g.dijkstraFinal s d).prev.getD d none with
    | none => exact absurd hpp hpne
    | some u0 => exact ⟨u0, rfl⟩
  have hcard : ((Finset.range g.numNodes).filter
      (fun x => oLt ((g.dijkstraFinal s d).key x) (some qd) = true)).card ≤
        g.numNodes :=
    le_trans (Finset.card_filter_le _ _) (le_of_eq (Finset.card_range _))
  obtain ⟨l, hwp, hlast, hlw⟩ := prev_chain hWF hFI g.numNodes d qd hkd hoptv
    hcard (g.numNodes + 1) (by omega)
  have hres : g.shortestPathFull s d = (qd, (d :: l).reverse) := by
    simp only [Graph.shortestPathFull]
    rw [if_neg (by rw [hpu0]; simp)]
    rw [hwp, show (g.dijkstraFinal s d).dist.getD d none = some qd from hkd]
    rfl
  rw [hres]
  refine ⟨?_, ?_, hlw, hoptv⟩
  · rw [List.head?_reverse]
    exact hlast
  · rw [List.getLast?_reverse]
    rfl

theorem shortestPath_unreachable (m : List (List ℚ)) (g : Graph)
    (hm : Graph.ofMatrix? m = some g)
    (s d : ℕ) (hs : s < g.numNodes) (hd : d < g.numNodes)
    (hsd : s ≠ d) (hunreach : ¬ Reach g s d) :
    (g.dijkstraFinal s d).prev.getD d none = none ∧
    g.shortestPathFull s d = (-1, []) := by
  have hWF := ofMatrix_wf hm
  obtain ⟨hFI, _⟩ := dijkstraFinal_spec (d := d) hWF hs
  have hpn : (g.dijkstraFinal s d).prev.getD d none = none := by
    cases hpp : (g.dijkstraFinal s d).prev.getD d none with
    | none => rfl
    | some u =>
      obtain ⟨_, qv, w, _, hew, hwalk, _⟩ := hFI.prevSpec d u hpp
      exact absurd ⟨qv - w + w, walk_snoc hwalk hew⟩ hunreach
  refine ⟨hpn, ?_⟩
  simp only [Graph.shortestPathFull]
  rw [if_pos hpn]

theorem shortestPath_self_counterexample :
    Graph.ofMatrix? mPath = some gPath ∧
    Reach gPath 0 0 ∧
    gPath.shortestPathFull 0 0 = (-1, []) ∧
    ¬ listWeight gPath (gPath.shortestPathFull 0 0).2 =
        some (gPath.shortestPathFull 0 0).1 :=
  ⟨by with_unfolding_all decide, ⟨0, Walk.nil 0⟩, by with_unfolding_all decide, by with_unfolding_all decide⟩

theorem shortestPath_correct_witness :
    (gPath.shortestPathFull 0 2).2.head? = some 0 ∧
    (gPath.shortestPathFull 0 2).2.getLast? = some 2 ∧
    listWeight gPath (gPath.shortestPathFull 0 2).2 =
      some (gPath.shortestPathFull 0 2).1 ∧
    ∀ r, Walk gPath 0 2 r → (gPath.shortestPathFull 0 2).1 ≤ r := by
  have e01 : ((1 : ℕ), (1 : ℚ)) ∈ gPath.edgesOf 0 := by with_unfolding_all decide
  have e12 : ((2 : ℕ), (1 : ℚ)) ∈ gPath.edgesOf 1 := by with_unfolding_all decide
  exact shortestPath_correct mPath gPath (by with_unfolding_all decide) (by with_unfolding_all decide) (by with_unfolding_all decide)
    0 2 (by with_unfolding_all decide) (by with_unfolding_all decide) (by with_unfolding_all decide)
    ⟨1 + (1 + 0), Walk.cons e01 (Walk.cons e12 (Walk.nil 2))⟩

theorem shortestPath_self_eval :
    Graph.ofMatrix? mSelf = some gSelf ∧
    Reach gSelf 0 0 ∧
    gSelf.shortestPathFull 0 0 = (-1, []) ∧
    ((-1 : ℚ) ≠ 0 ∧ (gSelf.shortestPathFull 0 0).2 ≠ [0]) :=
  ⟨by with_unfolding_all decide, ⟨0, Walk.nil 0⟩, by with_unfolding_all decide, by with_unfolding_all decide⟩

theorem gDisc_not_reach : ¬ Reach gDisc 1 0 := by
  rintro ⟨q, hw⟩
  cases hw with
  | cons he hw' =>
    have hedges : gDisc.edgesOf 1 = [] := rfl
    rw [hedges] at he
    exact absurd he (by simp)

theorem shortestPath_unreachable_witness :
    (gDisc.dijkstraFinal 1 0).prev.getD 0 none = none ∧
    gDisc.shortestPathFull 1 0 = (-1, []) :=
  shortestPath_unreachable mDisc gDisc (by with_unfolding_all decide) 1 0 (by with_unfolding_all decide) (by with_unfolding_all decide)
    (by with_unfolding_all decide) gDisc_not_reach

theorem ofMatrix_no_validation (m : List (List ℚ))
    (h : ∀ row ∈ m, m.length ≤ row.length) :
    ∃ g, Graph.ofMatrix? m = some g ∧ g.numNodes = m.length := by
  unfold Graph.ofMatrix?
  rw [if_pos (by simpa [List.all_eq_true] using h)]
  exact ⟨_, rfl, by simp [Graph.numNodes]⟩

theorem ofMatrix_nonsquare_counterexample :
    (∃ row ∈ ([[0, 0, 0], [0, 0, 0]] : List (List ℚ)),
      row.length ≠ ([[0, 0, 0], [0, 0, 0]] : List (List ℚ)).length) ∧
    (Graph.ofMatrix? [[0, 0, 0], [0, 0, 0]]).isSome = true := by
  constructor
  · exact ⟨[0, 0, 0], by simp, by simp⟩
  · with_unfolding_all decide

theorem ofMatrix_no_validation_witness :
    ∃ g, Graph.ofMatrix? [[0, 0, 0], [0, 0, 0]] = some g ∧
      g.numNodes = ([[0, 0, 0], [0, 0, 0]] : List (List ℚ)).length :=
  ofMatrix_no_validation [[0, 0, 0], [0, 0, 0]] (by intro row hrow; fin_cases hrow <;> simp)

theorem displayLegsGo_spec (g : Graph) (rid : ℤ) :
    ∀ (orders : List (ℕ × ℤ)) (prev : ℕ),
      (displayLegsGo g rid prev orders).length = orders.length ∧
      ∀ i, i < orders.length →
        (displayLegsGo g rid prev orders).getD i defaultLeg =
          { robotId := rid
            quantity := (orders.getD i (0, 0)).2
            pkgStr := if (orders.getD i (0, 0)).2 = 1 then "package" else "packages"
            house := (orders.getD i (0, 0)).1
            src := if i = 0 then prev else (orders.getD (i - 1) (0, 0)).1
            sp := g.shortestPathFull
              (if i = 0 then prev else (orders.getD (i - 1) (0, 0)).1)
              ((orders.getD i (0, 0)).1) } := by
  intro orders
  induction orders with
  | nil => intro prev; exact ⟨rfl, fun i hi => absurd hi (by simp)⟩
  | cons o rest ih =>
    intro prev
    constructor
    · show (displayLegsGo g rid prev (o :: rest)).length = rest.length + 1
      simp only [displayLegsGo, List.length_cons]
      rw [(ih o.1).1]
    · intro i hi
      cases i with
      | zero => rfl
      | succ j =>
        have hj : j < rest.length := by simpa using hi
        have := (ih o.1).2 j hj
        show (displayLegsGo g rid o.1 rest).getD j defaultLeg = _
        rw [this]
        cases j with
        | zero => rfl
        | succ k => rfl

theorem displayPath_legs (g : Graph) (t : Task) (i : ℕ)
    (h : i < t.deliveryOrders.length) :
    (t.displayPath g).length = t.deliveryOrders.length ∧
    (t.displayPath g).getD i defaultLeg =
      { robotId := t.robotId
        quantity := (t.deliveryOrders.getD i (0, 0)).2
        pkgStr := if (t.deliveryOrders.getD i (0, 0)).2 = 1 then "package"
          else "packages"
        house := (t.deliveryOrders.getD i (0, 0)).1
        src := if i = 0 then 0 else (t.deliveryOrders.getD (i - 1) (0, 0)).1
        sp := g.shortestPathFull
          (if i = 0 then 0 else (t.deliveryOrders.getD (i - 1) (0, 0)).1)
          ((t.deliveryOrders.getD i (0, 0)).1) } :=
  ⟨(displayLegsGo_spec g t.robotId t.deliveryOrders 0).1,
   (displayLegsGo_spec g t.robotId t.deliveryOrders 0).2 i h⟩

theorem displayPath_legs_witness :
    ((Task.mk 101 [(1, 1), (2, 2)]).displayPath gPath).length = 2 ∧
    ((Task.mk 101 [(1, 1), (2, 2)]).displayPath gPath).getD 1 defaultLeg =
      { robotId := 101
        quantity := 2
        pkgStr := "packages"
        house := 2
        src := 1
        sp := gPath.shortestPathFull 1 2 } := by
  have h := displayPath_legs gPath (Task.mk 101 [(1, 1), (2, 2)]) 1 (by decide)
  refine ⟨h.1, ?_⟩
  rw [h.2]
  with_unfolding_all decide

theorem ofMatrix_nodes {m : List (List ℚ)} {g : Graph}
    (h : Graph.ofMatrix? m = some g) :
    g.nodes = (List.range m.length).map (fun i =>
      { id := i
        edges := (List.range m.length).filterMap (fun j =>
          let d := (m.getD i []).getD j 0
          if epsilon < d then some (j, d) else none)
        numOrders := 0 : Node }) := by
  unfold Graph.ofMatrix? at h
  by_cases hall : m.all (fun row => m.length ≤ row.length)
  · rw [if_pos hall] at h
    injection h with h'
    rw [← h']
  · rw [if_neg hall] at h
    exact absurd h (by simp)

theorem updateOrders_getOrderList (rnd : ℕ → ℕ) {m : List (List ℚ)} {g : Graph}
    (hm : Graph.ofMatrix? m = some g) :
    (g.updateOrders rnd).getOrderList =
      (List.range m.length).map (fun i =>
        (i, if 1 ≤ i then ((rnd (i - 1) % 3 : ℕ) : ℤ) else 0)) := by
  unfold Graph.updateOrders Graph.getOrderList
  rw [ofMatrix_nodes hm]
  apply List.ext_getElem
  · simp
  · intro i h1 h2
    simp only [List.getElem_map, List.getElem_mapIdx, List.getElem_range]
    by_cases hi : 1 ≤ i
    · simp [hi]
    · simp [hi]

theorem updateOrders_correct (rnd : ℕ → ℕ) (m : List (List ℚ)) (g : Graph)
    (hm : Graph.ofMatrix? m = some g) :
    (∀ i, 1 ≤ i → i < g.numNodes →
      (g.updateOrders rnd).getOrderList.getD i (0, -1) =
        (i, ((rnd (i - 1) % 3 : ℕ) : ℤ)) ∧
      (0 : ℤ) ≤ ((rnd (i - 1) % 3 : ℕ) : ℤ) ∧
      ((rnd (i - 1) % 3 : ℕ) : ℤ) ≤ 2) ∧
    (0 < g.numNodes →
      (g.updateOrders rnd).getOrderList.getD 0 (0, -1) = (0, 0)) ∧
    (∀ (m' : List (List ℚ)) (g' : Graph), Graph.ofMatrix? m' = some g' →
      m'.length = m.length →
      (g'.updateOrders rnd).getOrderList = (g.updateOrders rnd).getOrderList) := by
  have hlist := updateOrders_getOrderList rnd hm
  have hn := ofMatrix_numNodes hm
  have hgetD : ∀ i, i < m.length →
      (g.updateOrders rnd).getOrderList.getD i (0, -1) =
        (i, if 1 ≤ i then ((rnd (i - 1) % 3 : ℕ) : ℤ) else 0) := by
    intro i hi
    rw [hlist, List.getD_eq_getElem?_getD, List.getElem?_map, List.getElem?_range hi]
    rfl
  refine ⟨?_, ?_, ?_⟩
  · intro i h1 h2
    rw [hn] at h2
    rw [hgetD i h2, if_pos h1]
    refine ⟨rfl, by positivity, ?_⟩
    have : rnd (i - 1) % 3 < 3 := Nat.mod_lt _ (by norm_num)
    omega
  · intro h0
    rw [hn] at h0
    rw [hgetD 0 h0]
    simp
  · intro m' g' hm' hlen
    rw [hlist, updateOrders_getOrderList rnd hm', hlen]

theorem updateOrders_correct_witness :
    ((∀ i, 1 ≤ i → i < gPath.numNodes →
      (gPath.updateOrders (fun k => k)).getOrderList.getD i (0, -1) =
        (i, (((fun k => k) (i - 1) % 3 : ℕ) : ℤ)) ∧
      (0 : ℤ) ≤ (((fun k => k) (i - 1) % 3 : ℕ) : ℤ) ∧
      (((fun k => k) (i - 1) % 3 : ℕ) : ℤ) ≤ 2) ∧
    (0 < gPath.numNodes →
      (gPath.updateOrders (fun k => k)).getOrderList.getD 0 (0, -1) = (0, 0)) ∧
    (∀ (m' : List (List ℚ)) (g' : Graph), Graph.ofMatrix? m' = some g' →
      m'.length = mPath.length →
      (g'.updateOrders (fun k => k)).getOrderList =
        (gPath.updateOrders (fun k => k)).getOrderList)) :=
  updateOrders_correct (fun k => k) mPath gPath (by with_unfolding_all decide)

end DeliverySystem
